import Mathlib

/-!
DAMS: Voronoi cell extraction and bounding-box clipping

A shallow embedding of `computeVoronoiCells` (src/main.cpp, lines 81-173) and of its
local helper `extendEdgeToBoundingBox` (lines 95-123).

* Real numbers of the program (`float`, `double`) are exact rationals; the
  `static_cast<float>` conversions are the identity.
* The Voronoi diagram built by the library call `construct_voronoi` (line 92) is a
  parameter: an arena of half-edges addressed by handles, and a list of cells.  Only the
  accessors the source reads are kept (`incident_edge`, `source_index`, `contains_point`,
  `is_primary`, `vertex0`, `vertex1`, `next`).
* The `do ... while` walk of lines 136-164 is run with fuel.  `none` stands for a run that
  has no result: a walk that never comes back to its first edge, a handle outside the
  arena, an index outside `airports`, or a null pointer dereference.
-/

namespace DAMS

/-! ## Data model -/

/-- The class `sf::Vector2f`: a pair of coordinates. -/
structure Vector2f where
  x : ℚ
  y : ℚ
  deriving DecidableEq, Repr

/-- The struct `Airport` (lines 14-19); the name is kept as a string. -/
structure Airport where
  name : String
  coordinates : Vector2f
  overloaded : Bool
  aircraft_count : Int
  deriving DecidableEq, Repr

/-- The struct `VoronoiCell` (lines 76-79). -/
structure VoronoiCell where
  vertices : List Vector2f
  overloaded : Bool
  deriving DecidableEq, Repr

/-- A diagram vertex (`vertex_type`), read through `x()` and `y()`. -/
structure Vertex where
  x : ℚ
  y : ℚ
  deriving DecidableEq, Repr

/-- A half-edge (`edge_type`): `vertex0`/`vertex1` are `none` for a null pointer, `next` is
the handle of the next edge around the cell. -/
structure Edge where
  is_primary : Bool
  vertex0 : Option Vertex
  vertex1 : Option Vertex
  next : Nat
  deriving DecidableEq, Repr

/-- A diagram cell (`cell_type`): `incident_edge` is `none` for a null pointer. -/
structure Cell where
  source_index : Nat
  contains_point : Bool
  incident_edge : Option Nat
  deriving DecidableEq, Repr

/-- The part of `voronoi_diagram<double>` that `computeVoronoiCells` reads. -/
structure Diagram where
  cells : List Cell
  edges : List Edge
  deriving DecidableEq, Repr

/-- A drawable segment, `std::pair<Vector2f, Vector2f>`. -/
abbrev Segment := Vector2f × Vector2f

/-! ## The boundary clipper (lines 95-123) -/

/-- Lines 101-109: the update of `(t_min, t_max)` by the x axis. -/
def clipX (width : ℤ) (x0 dx : ℚ) (t : ℚ × ℚ) : ℚ × ℚ :=
  if dx ≠ 0 then
    if dx > 0 then
      (max t.1 ((0 - x0) / dx), min t.2 (((width : ℚ) - x0) / dx))
    else
      (max t.1 (((width : ℚ) - x0) / dx), min t.2 ((0 - x0) / dx))
  else t

/-- Lines 111-119: the update of `(t_min, t_max)` by the y axis. -/
def clipY (height : ℤ) (y0 dy : ℚ) (t : ℚ × ℚ) : ℚ × ℚ :=
  if dy ≠ 0 then
    if dy > 0 then
      (max t.1 ((0 - y0) / dy), min t.2 (((height : ℚ) - y0) / dy))
    else
      (max t.1 (((height : ℚ) - y0) / dy), min t.2 ((0 - y0) / dy))
  else t

/-- Lines 96-119: the window `(t_min, t_max)` held when the `return` of line 121 is
reached; it starts at `(0.0, 1.0)` (lines 98-99). -/
def clipWindow (width height : ℤ) (x0 y0 x1 y1 : ℚ) : ℚ × ℚ :=
  let dx := x1 - x0
  let dy := y1 - y0
  clipY height y0 dy (clipX width x0 dx (0, 1))

/-- The lambda `extendEdgeToBoundingBox` (lines 95-123); `width` and `height` are the
captured parameters of `computeVoronoiCells`. -/
def extendEdgeToBoundingBox (width height : ℤ) (x0 y0 x1 y1 : ℚ) : Segment :=
  let dx := x1 - x0
  let dy := y1 - y0
  let t := clipWindow width height x0 y0 x1 y1
  (⟨x0 + t.1 * dx, y0 + t.1 * dy⟩, ⟨x0 + t.2 * dx, y0 + t.2 * dy⟩)

/-- Failures the specification names for the clipper. -/
inductive ClipError where
  | DegenerateDirection
  deriving DecidableEq, Repr

/-- How a call of the lambda ends.  Its body (lines 96-122) has no `throw`, no assertion
and no exit other than the `return` of line 121, so every call ends with the returned
pair. -/
def extendEdgeOutcome (width height : ℤ) (x0 y0 x1 y1 : ℚ) : Except ClipError Segment :=
  Except.ok (extendEdgeToBoundingBox width height x0 y0 x1 y1)

/-- A division that records a zero divisor as `none`. -/
def divChecked (a b : ℚ) : Option ℚ :=
  if b = 0 then none else some (a / b)

/-- Lines 101-109 with every `/` replaced by `divChecked`. -/
def clipXChecked (width : ℤ) (x0 dx : ℚ) (t : ℚ × ℚ) : Option (ℚ × ℚ) :=
  if dx ≠ 0 then
    if dx > 0 then
      (divChecked ((width : ℚ) - x0) dx).bind fun hi =>
      (divChecked (0 - x0) dx).bind fun lo =>
      some (max t.1 lo, min t.2 hi)
    else
      (divChecked (0 - x0) dx).bind fun hi =>
      (divChecked ((width : ℚ) - x0) dx).bind fun lo =>
      some (max t.1 lo, min t.2 hi)
  else some t

/-- Lines 111-119 with every `/` replaced by `divChecked`. -/
def clipYChecked (height : ℤ) (y0 dy : ℚ) (t : ℚ × ℚ) : Option (ℚ × ℚ) :=
  if dy ≠ 0 then
    if dy > 0 then
      (divChecked ((height : ℚ) - y0) dy).bind fun hi =>
      (divChecked (0 - y0) dy).bind fun lo =>
      some (max t.1 lo, min t.2 hi)
    else
      (divChecked (0 - y0) dy).bind fun hi =>
      (divChecked ((height : ℚ) - y0) dy).bind fun lo =>
      some (max t.1 lo, min t.2 hi)
  else some t

/-- The lambda with every division checked: `none` as soon as a divisor is zero. -/
def extendEdgeChecked (width height : ℤ) (x0 y0 x1 y1 : ℚ) : Option Segment :=
  let dx := x1 - x0
  let dy := y1 - y0
  (clipXChecked width x0 dx (0, 1)).bind fun tx =>
  (clipYChecked height y0 dy tx).bind fun t =>
  some (⟨x0 + t.1 * dx, y0 + t.1 * dy⟩, ⟨x0 + t.2 * dx, y0 + t.2 * dy⟩)

/-! ## The cell walk (lines 126-170) -/

/-- The ternary `a ? a->f() : b->f()` of lines 150-153; `none` is a null dereference. -/
def selectCoord (a b : Option Vertex) (f : Vertex → ℚ) : Option ℚ :=
  match a with
  | some v => some (f v)
  | none => b.map f

/-- Lines 150-153: the arguments `(x0, y0, x1, y1)` handed to the clipper. -/
def clipperArgs (v0 v1 : Option Vertex) : Option (ℚ × ℚ × ℚ × ℚ) :=
  (selectCoord v0 v1 Vertex.x).bind fun x0 =>
  (selectCoord v0 v1 Vertex.y).bind fun y0 =>
  (selectCoord v1 v0 Vertex.x).bind fun x1 =>
  (selectCoord v1 v0 Vertex.y).bind fun y1 =>
  some (x0, y0, x1, y1)

/-- The locals written by the body of the `do ... while` loop: `voronoiCell.vertices`,
the shared vector `edges`, and `has_vertices`. -/
structure WalkState where
  vertices : List Vector2f
  edges : List Segment
  has_vertices : Bool
  deriving DecidableEq, Repr

/-- Lines 137-161: the loop body for one edge. -/
def visitEdge (scaleX scaleY : ℚ) (width height : ℤ) (edge : Edge) (st : WalkState) :
    Option WalkState :=
  if edge.is_primary then
    match edge.vertex0, edge.vertex1 with
    | some v0, some v1 =>
      let p0 : Vector2f := ⟨v0.x / scaleX, v0.y / scaleY⟩
      let p1 : Vector2f := ⟨v1.x / scaleX, v1.y / scaleY⟩
      some { vertices := st.vertices ++ [p0, p1],
             edges := st.edges ++ [(p0, p1)],
             has_vertices := true }
    | v0, v1 =>
      if v0.isSome || v1.isSome then
        (clipperArgs v0 v1).bind fun a =>
        let bboxEdges := extendEdgeToBoundingBox width height a.1 a.2.1 a.2.2.1 a.2.2.2
        some { vertices := st.vertices ++ [bboxEdges.1, bboxEdges.2],
               edges := st.edges ++ [bboxEdges],
               has_vertices := true }
      else some st
  else some st

/-- Lines 136-164: the `do ... while (edge != cell.incident_edge())` loop, `start` being
`cell.incident_edge()` and `cur` the current `edge`. -/
def walk (scaleX scaleY : ℚ) (width height : ℤ) (edges : List Edge) (start : Nat) :
    Nat → Nat → WalkState → Option WalkState
  | 0, _, _ => none
  | fuel + 1, cur, st =>
    match edges[cur]? with
    | none => none
    | some edge =>
      match visitEdge scaleX scaleY width height edge st with
      | none => none
      | some st1 =>
        if edge.next = start then some st1
        else walk scaleX scaleY width height edges start fuel edge.next st1

/-- The two outputs: the returned `voronoiCells` and the vector `edges` passed by
reference. -/
structure Output where
  cells : List VoronoiCell
  edges : List Segment
  deriving DecidableEq, Repr

/-- Lines 127-169: one iteration of the loop over `vd.cells()`.  A walk that returns to
its first edge visits at most as many edges as the arena holds, which is the fuel. -/
def processCell (airports : List Airport) (scaleX scaleY : ℚ) (width height : ℤ)
    (vd : Diagram) (cell : Cell) (acc : Output) : Option Output :=
  match cell.incident_edge with
  | none => some acc
  | some start =>
    match airports[cell.source_index]? with
    | none => none
    | some airport =>
      match walk scaleX scaleY width height vd.edges start vd.edges.length start
          { vertices := [], edges := acc.edges, has_vertices := false } with
      | none => none
      | some st =>
        if st.has_vertices && cell.contains_point then
          some { cells := acc.cells ++ [{ vertices := st.vertices,
                                          overloaded := airport.overloaded }],
                 edges := st.edges }
        else some { cells := acc.cells, edges := st.edges }

/-- Lines 126-170: the loop over the cells still to visit. -/
def cellLoop (airports : List Airport) (scaleX scaleY : ℚ) (width height : ℤ)
    (vd : Diagram) : List Cell → Output → Option Output
  | [], acc => some acc
  | cell :: rest, acc =>
    match processCell airports scaleX scaleY width height vd cell acc with
    | none => none
    | some acc1 => cellLoop airports scaleX scaleY width height vd rest acc1

/-- The function `computeVoronoiCells` (lines 81-173) after the diagram `vd` is built;
`edges` is the content of the by-reference vector at the call. -/
def computeVoronoiCells (airports : List Airport) (scaleX scaleY : ℚ) (width height : ℤ)
    (vd : Diagram) (edges : List Segment) : Option Output :=
  cellLoop airports scaleX scaleY width height vd vd.cells { cells := [], edges := edges }

/-! ## Predicates used by the statements -/

/-- The closed canvas rectangle `[0,width] × [0,height]`. -/
def InCanvas (width height : ℤ) (p : Vector2f) : Prop :=
  0 ≤ p.x ∧ p.x ≤ (width : ℚ) ∧ 0 ≤ p.y ∧ p.y ≤ (height : ℚ)

instance (width height : ℤ) (p : Vector2f) : Decidable (InCanvas width height p) := by
  unfold InCanvas; infer_instance

/-- The boundary of the canvas rectangle. -/
def OnBoundary (width height : ℤ) (p : Vector2f) : Prop :=
  InCanvas width height p ∧ (p.x = 0 ∨ p.x = (width : ℚ) ∨ p.y = 0 ∨ p.y = (height : ℚ))

instance (width height : ℤ) (p : Vector2f) : Decidable (OnBoundary width height p) := by
  unfold OnBoundary; infer_instance

/-- The point `(x0,y0) + t * (dx,dy)` of the line through the anchor. -/
def lineAt (x0 y0 dx dy t : ℚ) : Vector2f := ⟨x0 + t * dx, y0 + t * dy⟩

/-- The handle reached from `h` after `k` uses of `next`, `none` when a handle on the way
is outside the arena. -/
def nextIter (edges : List Edge) : Nat → Nat → Option Nat
  | 0, h => some h
  | k + 1, h =>
    match edges[h]? with
    | none => none
    | some e => nextIter edges k e.next

/-- The `next` relation is cyclic from `s`: following `next` from `s` leads back to `s`.
The bound on `k` costs nothing, see `cyclicFrom_of_returns`. -/
def CyclicFrom (edges : List Edge) (s : Nat) : Prop :=
  ∃ k, k < edges.length ∧ nextIter edges (k + 1) s = some s

instance (edges : List Edge) (s : Nat) : Decidable (CyclicFrom edges s) := by
  unfold CyclicFrom; infer_instance

/-- Every cell with an incident edge has a cyclic walk and a valid `source_index`. -/
def WellFormed (airports : List Airport) (vd : Diagram) : Prop :=
  ∀ c ∈ vd.cells, ∀ s ∈ c.incident_edge,
    CyclicFrom vd.edges s ∧ c.source_index < airports.length

instance (airports : List Airport) (vd : Diagram) : Decidable (WellFormed airports vd) := by
  unfold WellFormed; infer_instance

/-- The three writes of lines 144-147 and of lines 155-158: two points pushed on the
polygon, their pair pushed on the edge list, `has_vertices` set. -/
def appendSegment (st : WalkState) (p q : Vector2f) : WalkState :=
  { vertices := st.vertices ++ [p, q], edges := st.edges ++ [(p, q)], has_vertices := true }

/-- A diagram vertex reported as it is, without division by the scale. -/
def Vertex.unscaled (v : Vertex) : Vector2f := ⟨v.x, v.y⟩

/-- A diagram vertex reported in canvas space: x divided by `scaleX`, y by `scaleY`. -/
def Vertex.scaledBack (scaleX scaleY : ℚ) (v : Vertex) : Vector2f :=
  ⟨v.x / scaleX, v.y / scaleY⟩

/-- Every point of every emitted polygon and both ends of every listed segment lie in the
canvas. -/
def AllInCanvas (width height : ℤ) (out : Output) : Prop :=
  (∀ c ∈ out.cells, ∀ p ∈ c.vertices, InCanvas width height p) ∧
  ∀ s ∈ out.edges, InCanvas width height s.1 ∧ InCanvas width height s.2

instance (width height : ℤ) (out : Output) : Decidable (AllInCanvas width height out) := by
  unfold AllInCanvas; infer_instance

/-- The segment `(p, q)` appears in the polygon: `p` immediately followed by `q`. -/
def Adjacent (vertices : List Vector2f) (s : Segment) : Prop :=
  [s.1, s.2] <:+: vertices

instance (vertices : List Vector2f) (s : Segment) : Decidable (Adjacent vertices s) := by
  unfold Adjacent; infer_instance

/-- Every listed segment appears in the polygon of some emitted cell. -/
def EdgesInCells (out : Output) : Prop :=
  ∀ s ∈ out.edges, ∃ c ∈ out.cells, Adjacent c.vertices s

instance (out : Output) : Decidable (EdgesInCells out) := by
  unfold EdgesInCells; infer_instance

/-- The state with the segments `base` put in front of its edge list. -/
def prependEdges (base : List Segment) (st : WalkState) : WalkState :=
  { vertices := st.vertices, edges := base ++ st.edges, has_vertices := st.has_vertices }

/-- The walk of lines 136-164 around `cell`, started as line 132-134 start it and with an
empty edge list; `none` for a null incident edge or a walk without result. -/
def cellWalk (scaleX scaleY : ℚ) (width height : ℤ) (vd : Diagram) (cell : Cell) :
    Option WalkState :=
  match cell.incident_edge with
  | none => none
  | some start =>
    walk scaleX scaleY width height vd.edges start vd.edges.length start
      { vertices := [], edges := [], has_vertices := false }

/-- The guard of line 167 on the walk around `cell`. -/
def emits (scaleX scaleY : ℚ) (width height : ℤ) (vd : Diagram) (cell : Cell) : Bool :=
  match cellWalk scaleX scaleY width height vd cell with
  | none => false
  | some st => st.has_vertices && cell.contains_point

/-- The emitted cell `vc` is the one of the diagram cell `c`: its polygon is the one
walked around `c` and its flag is the `overloaded` flag of the airport at the
`source_index` of `c`. -/
def EmittedFrom (airports : List Airport) (scaleX scaleY : ℚ) (width height : ℤ)
    (vd : Diagram) (vc : VoronoiCell) (c : Cell) : Prop :=
  ∃ a st, airports[c.source_index]? = some a ∧
    cellWalk scaleX scaleY width height vd c = some st ∧
    vc.vertices = st.vertices ∧ vc.overloaded = a.overloaded

/-- A primary edge with the two finite endpoints `v0` and `v1`. -/
def FiniteEdge (e : Edge) (v0 v1 : Vertex) : Prop :=
  e.is_primary = true ∧ e.vertex0 = some v0 ∧ e.vertex1 = some v1

/-- The point `p` is an endpoint of a finite primary edge of the arena, with x divided by
`scaleX` and y by `scaleY`. -/
def ScaledEndpointOf (scaleX scaleY : ℚ) (edges : List Edge) (p : Vector2f) : Prop :=
  ∃ e ∈ edges, ∃ v0 v1, FiniteEdge e v0 v1 ∧
    (p = v0.scaledBack scaleX scaleY ∨ p = v1.scaledBack scaleX scaleY)

/-- The segment `s` joins the two endpoints of a finite primary edge of the arena, each
with x divided by `scaleX` and y by `scaleY`. -/
def ScaledSegmentOf (scaleX scaleY : ℚ) (edges : List Edge) (s : Segment) : Prop :=
  ∃ e ∈ edges, ∃ v0 v1, FiniteEdge e v0 v1 ∧
    s = (v0.scaledBack scaleX scaleY, v1.scaledBack scaleX scaleY)

/-- The handle `h` is met by the walk that starts at `s`: it is reached by following
`next` from `s` without coming back to `s` on the way. -/
def OnWalk (edges : List Edge) (s h : Nat) : Prop :=
  ∃ k, nextIter edges k s = some h ∧ ∀ j, 1 ≤ j → j ≤ k → nextIter edges j s ≠ some s

/-- Every cell is backed by a point, as in every diagram `construct_voronoi` builds from
the point sites of lines 85-92. -/
def PointBacked (vd : Diagram) : Prop :=
  ∀ c ∈ vd.cells, c.contains_point = true

instance (vd : Diagram) : Decidable (PointBacked vd) := by
  unfold PointBacked; infer_instance

/-! ## Concrete diagrams -/

/-- Four airports; with scale 2 their lattice points are (100,400), (600,420),
(1100,400) and (600,700). -/
def fourSites : List Airport :=
  [⟨"A", ⟨50, 200⟩, false, 3⟩, ⟨"B", ⟨300, 210⟩, true, 9⟩,
   ⟨"C", ⟨550, 200⟩, false, 2⟩, ⟨"D", ⟨300, 350⟩, true, 7⟩]

/-- The Voronoi diagram of the lattice points (100,400), (600,420), (1100,400), (600,700).
Its vertices are the circumcentres (600,-5840) of A B C, (344,560) of A B D and
(856,560) of B C D.  The cell of B is the triangle on the three vertices; the cells of
A, C and D have one finite edge and two rays each.  Edge handles: 0-2 around A, 3-5
around B, 6-8 around C, 9-11 around D. -/
def fourSiteDiagram : Diagram :=
  { cells := [⟨0, true, some 0⟩, ⟨1, true, some 3⟩, ⟨2, true, some 6⟩, ⟨3, true, some 9⟩],
    edges := [
      ⟨true, some ⟨600, -5840⟩, some ⟨344, 560⟩, 1⟩,
      ⟨true, some ⟨344, 560⟩, none, 2⟩,
      ⟨true, none, some ⟨600, -5840⟩, 0⟩,
      ⟨true, some ⟨600, -5840⟩, some ⟨856, 560⟩, 4⟩,
      ⟨true, some ⟨856, 560⟩, some ⟨344, 560⟩, 5⟩,
      ⟨true, some ⟨344, 560⟩, some ⟨600, -5840⟩, 3⟩,
      ⟨true, some ⟨856, 560⟩, some ⟨600, -5840⟩, 7⟩,
      ⟨true, some ⟨600, -5840⟩, none, 8⟩,
      ⟨true, none, some ⟨856, 560⟩, 6⟩,
      ⟨true, some ⟨344, 560⟩, some ⟨856, 560⟩, 10⟩,
      ⟨true, some ⟨856, 560⟩, none, 11⟩,
      ⟨true, none, some ⟨344, 560⟩, 9⟩ ] }

/-- One triangular cell: three primary edges with finite endpoints, each of them inside
the 1200 x 800 canvas once halved. -/
def triangleDiagram : Diagram :=
  { cells := [⟨1, true, some 0⟩],
    edges := [
      ⟨true, some ⟨600, 150⟩, some ⟨856, 560⟩, 1⟩,
      ⟨true, some ⟨856, 560⟩, some ⟨344, 560⟩, 2⟩,
      ⟨true, some ⟨344, 560⟩, some ⟨600, 150⟩, 0⟩ ] }

/-- Two airports at (0,0) and (W,0) with the given flags. -/
def twoSites (W : ℚ) (o0 o1 : Bool) : List Airport :=
  [⟨"P", ⟨0, 0⟩, o0, 0⟩, ⟨"Q", ⟨W, 0⟩, o1, 0⟩]

/-- The diagram of two sites: two cells, each bounded by one primary edge with both
endpoints absent (the bisector line), which is its own `next`. -/
def twoSiteDiagram : Diagram :=
  { cells := [⟨0, true, some 0⟩, ⟨1, true, some 1⟩],
    edges := [⟨true, none, none, 0⟩, ⟨true, none, none, 1⟩] }

/-- The diagram of one site: one point-backed cell with a null incident edge. -/
def oneSiteDiagram : Diagram :=
  { cells := [⟨0, true, none⟩], edges := [] }

/-- One point-backed cell whose walk meets secondary edges only. -/
def secondaryOnlyDiagram : Diagram :=
  { cells := [⟨0, true, some 0⟩],
    edges := [⟨false, none, some ⟨3, 4⟩, 1⟩, ⟨false, some ⟨3, 4⟩, none, 0⟩] }

/-- One airport inside the 10 x 10 canvas. -/
def oneSite : List Airport := [⟨"P", ⟨5, 5⟩, false, 0⟩]

/-- The value `computeVoronoiCells` has on the four-site diagram with scale 2: endpoints of
finite edges are halved, endpoints of rays are not. -/
def fourSiteOutput : Output :=
  { cells := [
      ⟨[⟨300, -2920⟩, ⟨172, 280⟩, ⟨344, 560⟩, ⟨344, 560⟩,
        ⟨600, -5840⟩, ⟨600, -5840⟩], false⟩,
      ⟨[⟨300, -2920⟩, ⟨428, 280⟩, ⟨428, 280⟩, ⟨172, 280⟩,
        ⟨172, 280⟩, ⟨300, -2920⟩], true⟩,
      ⟨[⟨428, 280⟩, ⟨300, -2920⟩, ⟨600, -5840⟩, ⟨600, -5840⟩,
        ⟨856, 560⟩, ⟨856, 560⟩], false⟩,
      ⟨[⟨172, 280⟩, ⟨428, 280⟩, ⟨856, 560⟩, ⟨856, 560⟩,
        ⟨344, 560⟩, ⟨344, 560⟩], true⟩],
    edges := [
      (⟨300, -2920⟩, ⟨172, 280⟩), (⟨344, 560⟩, ⟨344, 560⟩),
      (⟨600, -5840⟩, ⟨600, -5840⟩),
      (⟨300, -2920⟩, ⟨428, 280⟩), (⟨428, 280⟩, ⟨172, 280⟩),
      (⟨172, 280⟩, ⟨300, -2920⟩),
      (⟨428, 280⟩, ⟨300, -2920⟩), (⟨600, -5840⟩, ⟨600, -5840⟩),
      (⟨856, 560⟩, ⟨856, 560⟩),
      (⟨172, 280⟩, ⟨428, 280⟩), (⟨856, 560⟩, ⟨856, 560⟩),
      (⟨344, 560⟩, ⟨344, 560⟩)] }

/-! ## The clipper: arithmetic lemmas -/

theorem clipY_eq_clipX (height : ℤ) (y0 dy : ℚ) (t : ℚ × ℚ) :
    clipY height y0 dy t = clipX height y0 dy t := rfl

theorem clipX_zero (width : ℤ) (x0 : ℚ) (t : ℚ × ℚ) : clipX width x0 0 t = t := by
  simp [clipX]

theorem clipY_zero (height : ℤ) (y0 : ℚ) (t : ℚ × ℚ) : clipY height y0 0 t = t := by
  simp [clipY]

theorem clipXChecked_eq (width : ℤ) (x0 dx : ℚ) (t : ℚ × ℚ) :
    clipXChecked width x0 dx t = some (clipX width x0 dx t) := by
  unfold clipXChecked clipX divChecked
  by_cases h : dx = 0
  · simp [h]
  · by_cases hp : dx > 0 <;> simp [h, hp]

theorem clipYChecked_eq (height : ℤ) (y0 dy : ℚ) (t : ℚ × ℚ) :
    clipYChecked height y0 dy t = some (clipY height y0 dy t) := by
  unfold clipYChecked clipY divChecked
  by_cases h : dy = 0
  · simp [h]
  · by_cases hp : dy > 0 <;> simp [h, hp]

theorem extendEdgeChecked_eq (width height : ℤ) (x0 y0 x1 y1 : ℚ) :
    extendEdgeChecked width height x0 y0 x1 y1
      = some (extendEdgeToBoundingBox width height x0 y0 x1 y1) := by
  simp [extendEdgeChecked, extendEdgeToBoundingBox, clipWindow, clipXChecked_eq,
    clipYChecked_eq]

theorem clipWindow_degenerate (width height : ℤ) (x y : ℚ) :
    clipWindow width height x y x y = (0, 1) := by
  simp [clipWindow, clipX, clipY]

theorem extendEdge_degenerate (width height : ℤ) (x y : ℚ) :
    extendEdgeToBoundingBox width height x y x y = (⟨x, y⟩, ⟨x, y⟩) := by
  simp [extendEdgeToBoundingBox, clipWindow_degenerate]

/-- One axis, anchor coordinate inside `[0, extent]`, window `(0, hi)` with `0 ≤ hi`: the
lower bound stays `0`, the upper bound stays in `[0, hi]`, the coordinate reached at the
upper bound stays in `[0, extent]`, and the upper bound moved only onto a side. -/
theorem clipX_inside (extent : ℤ) (a d hi : ℚ) (ha0 : 0 ≤ a) (haE : a ≤ (extent : ℚ))
    (hhi : 0 ≤ hi) :
    (clipX extent a d (0, hi)).1 = 0 ∧ 0 ≤ (clipX extent a d (0, hi)).2 ∧
    (clipX extent a d (0, hi)).2 ≤ hi ∧
    0 ≤ a + (clipX extent a d (0, hi)).2 * d ∧
    a + (clipX extent a d (0, hi)).2 * d ≤ (extent : ℚ) ∧
    ((clipX extent a d (0, hi)).2 = hi ∨ a + (clipX extent a d (0, hi)).2 * d = 0 ∨
      a + (clipX extent a d (0, hi)).2 * d = (extent : ℚ)) := by
  unfold clipX
  rcases lt_trichotomy d 0 with hd | hd | hd
  · have hne : d ≠ 0 := ne_of_lt hd
    have hnp : ¬ d > 0 := not_lt.mpr (le_of_lt hd)
    have hc : 0 ≤ (0 - a) / d := by
      apply div_nonneg_of_nonpos _ (le_of_lt hd)
      linarith
    have hlo : ((extent : ℚ) - a) / d ≤ 0 := by
      apply div_nonpos_of_nonneg_of_nonpos _ (le_of_lt hd)
      linarith
    have hmul : (0 - a) / d * d = 0 - a := div_mul_cancel₀ _ hne
    simp only [hne, hnp, ne_eq, not_false_eq_true, if_true, if_false]
    refine ⟨max_eq_left hlo, le_min hhi hc, min_le_left _ _, ?_, ?_, ?_⟩
    · have h1 : min hi ((0 - a) / d) ≤ (0 - a) / d := min_le_right _ _
      have h2 : (0 - a) / d * d ≤ min hi ((0 - a) / d) * d :=
        mul_le_mul_of_nonpos_right h1 (le_of_lt hd)
      linarith
    · have h1 : 0 ≤ min hi ((0 - a) / d) := le_min hhi hc
      have h2 : min hi ((0 - a) / d) * d ≤ 0 :=
        mul_nonpos_of_nonneg_of_nonpos h1 (le_of_lt hd)
      linarith
    · rcases le_total hi ((0 - a) / d) with h | h
      · left; exact min_eq_left h
      · right; left; rw [min_eq_right h, hmul]; ring
  · subst hd
    simp [hhi, ha0, haE]
  · have hne : d ≠ 0 := ne_of_gt hd
    have hc : 0 ≤ ((extent : ℚ) - a) / d := by
      apply div_nonneg _ (le_of_lt hd)
      linarith
    have hlo : (0 - a) / d ≤ 0 := by
      apply div_nonpos_of_nonpos_of_nonneg _ (le_of_lt hd)
      linarith
    have hmul : ((extent : ℚ) - a) / d * d = (extent : ℚ) - a := div_mul_cancel₀ _ hne
    simp only [hne, hd, ne_eq, not_false_eq_true, if_true]
    refine ⟨max_eq_left hlo, le_min hhi hc, min_le_left _ _, ?_, ?_, ?_⟩
    · have h1 : 0 ≤ min hi (((extent : ℚ) - a) / d) := le_min hhi hc
      have h2 : 0 ≤ min hi (((extent : ℚ) - a) / d) * d := mul_nonneg h1 (le_of_lt hd)
      linarith
    · have h1 : min hi (((extent : ℚ) - a) / d) ≤ ((extent : ℚ) - a) / d := min_le_right _ _
      have h2 : min hi (((extent : ℚ) - a) / d) * d ≤ ((extent : ℚ) - a) / d * d :=
        mul_le_mul_of_nonneg_right h1 (le_of_lt hd)
      linarith
    · rcases le_total hi (((extent : ℚ) - a) / d) with h | h
      · left; exact min_eq_left h
      · right; right; rw [min_eq_right h, hmul]; ring

/-- A coordinate that is inside `[0, extent]` at parameter `0` and at parameter `hi` is
inside at every parameter between them. -/
theorem coord_between (extent a d s hi : ℚ) (hs0 : 0 ≤ s) (hshi : s ≤ hi)
    (ha0 : 0 ≤ a) (haE : a ≤ extent) (hb0 : 0 ≤ a + hi * d) (hbE : a + hi * d ≤ extent) :
    0 ≤ a + s * d ∧ a + s * d ≤ extent := by
  rcases le_total 0 d with hd | hd
  · have h1 : 0 ≤ s * d := mul_nonneg hs0 hd
    have h2 : s * d ≤ hi * d := mul_le_mul_of_nonneg_right hshi hd
    constructor <;> linarith
  · have h1 : s * d ≤ 0 := mul_nonpos_of_nonneg_of_nonpos hs0 hd
    have h2 : hi * d ≤ s * d := mul_le_mul_of_nonpos_right hshi hd
    constructor <;> linarith

/-! ## The clipper: claims C5, C6, C7 -/

/-- What the lambda computes as written, with its window seeded at `(0, 1)`: for an anchor
inside the rectangle both returned points lie on the segment from the anchor to the second
point and inside the closed rectangle, the first is the anchor, and the second is the
second point `(x1,y1)` or a point of the boundary. -/
theorem extendEdge_clips_segment (width height : ℤ) (x0 y0 x1 y1 : ℚ)
    (hanchor : InCanvas width height ⟨x0, y0⟩) :
    (extendEdgeToBoundingBox width height x0 y0 x1 y1).1 = ⟨x0, y0⟩ ∧
    (extendEdgeToBoundingBox width height x0 y0 x1 y1).1
      = lineAt x0 y0 (x1 - x0) (y1 - y0) 0 ∧
    (∃ t, 0 ≤ t ∧ t ≤ 1 ∧ (extendEdgeToBoundingBox width height x0 y0 x1 y1).2
      = lineAt x0 y0 (x1 - x0) (y1 - y0) t) ∧
    InCanvas width height (extendEdgeToBoundingBox width height x0 y0 x1 y1).1 ∧
    InCanvas width height (extendEdgeToBoundingBox width height x0 y0 x1 y1).2 ∧
    ((extendEdgeToBoundingBox width height x0 y0 x1 y1).2 = ⟨x1, y1⟩ ∨
      OnBoundary width height (extendEdgeToBoundingBox width height x0 y0 x1 y1).2) := by
  obtain ⟨hx0, hxW, hy0, hyH⟩ := hanchor
  simp only at hx0 hxW hy0 hyH
  obtain ⟨a1, a2, a3, a4, a5, a6⟩ :=
    clipX_inside width x0 (x1 - x0) 1 hx0 hxW zero_le_one
  have hpair : clipX width x0 (x1 - x0) (0, 1)
      = (0, (clipX width x0 (x1 - x0) (0, 1)).2) :=
    Prod.ext a1 rfl
  obtain ⟨b1, b2, b3, b4, b5, b6⟩ :=
    clipX_inside height y0 (y1 - y0) (clipX width x0 (x1 - x0) (0, 1)).2 hy0 hyH a2
  have hw : clipWindow width height x0 y0 x1 y1
      = clipX height y0 (y1 - y0) (0, (clipX width x0 (x1 - x0) (0, 1)).2) := by
    show clipY height y0 (y1 - y0) (clipX width x0 (x1 - x0) (0, 1)) = _
    rw [clipY_eq_clipX, ← hpair]
  obtain ⟨c1, c2⟩ := coord_between width x0 (x1 - x0) _ _ b2 b3 hx0 hxW a4 a5
  have hfst : (extendEdgeToBoundingBox width height x0 y0 x1 y1).1 = ⟨x0, y0⟩ := by
    simp [extendEdgeToBoundingBox, hw, b1]
  have hsnd : (extendEdgeToBoundingBox width height x0 y0 x1 y1).2
      = lineAt x0 y0 (x1 - x0) (y1 - y0)
          (clipX height y0 (y1 - y0) (0, (clipX width x0 (x1 - x0) (0, 1)).2)).2 := by
    simp [extendEdgeToBoundingBox, hw, lineAt]
  have hin2 : InCanvas width height (lineAt x0 y0 (x1 - x0) (y1 - y0)
      (clipX height y0 (y1 - y0) (0, (clipX width x0 (x1 - x0) (0, 1)).2)).2) :=
    ⟨c1, c2, b4, b5⟩
  refine ⟨hfst, ?_, ⟨_, b2, le_trans b3 a3, hsnd⟩, ?_, ?_, ?_⟩
  · rw [hfst]; simp [lineAt]
  · rw [hfst]; exact ⟨hx0, hxW, hy0, hyH⟩
  · rw [hsnd]; exact hin2
  · rw [hsnd]
    rcases b6 with e | e | e
    · rcases a6 with f | f | f
      · left
        rw [e, f]
        simp [lineAt]
      · right
        refine ⟨hin2, Or.inl ?_⟩
        rw [e]; exact f
      · right
        refine ⟨hin2, Or.inr (Or.inl ?_)⟩
        rw [e]; exact f
    · right
      exact ⟨hin2, Or.inr (Or.inr (Or.inl e))⟩
    · right
      exact ⟨hin2, Or.inr (Or.inr (Or.inr e))⟩

/-- The segment from (5,5) to (20,5) on the 10 x 10 canvas is cut at the boundary. -/
theorem extendEdge_clips_segment_example :
    InCanvas 10 10 ⟨5, 5⟩ ∧
    ((extendEdgeToBoundingBox 10 10 5 5 20 5).2 = ⟨20, 5⟩ ∨
      OnBoundary 10 10 (extendEdgeToBoundingBox 10 10 5 5 20 5).2) :=
  ⟨by norm_num [InCanvas],
   (extendEdge_clips_segment 10 10 5 5 20 5 (by norm_num [InCanvas])).2.2.2.2.2⟩

/-- C6, as stated, fails: with `dx = dy = 0` (anchor and second point both (5,5)) the
clipper does not fail with `DegenerateDirection`; it returns the anchor twice. -/
theorem extendEdge_no_degenerate_failure :
    (5 : ℚ) - 5 = 0 ∧
    extendEdgeOutcome 10 10 5 5 5 5 ≠ Except.error ClipError.DegenerateDirection ∧
    extendEdgeOutcome 10 10 5 5 5 5 = Except.ok (⟨5, 5⟩, ⟨5, 5⟩) := by
  refine ⟨by norm_num, ?_, ?_⟩
  · simp [extendEdgeOutcome]
  · simp [extendEdgeOutcome, extendEdge_degenerate]

/-- C6, amended: the clipper has no failure; it returns two points for every input, and
when both direction components are zero the two points are the anchor. -/
theorem extendEdge_always_returns (width height : ℤ) (x0 y0 : ℚ) :
    (∀ x1 y1, ∃ p q, extendEdgeOutcome width height x0 y0 x1 y1 = Except.ok (p, q)) ∧
    extendEdgeOutcome width height x0 y0 x0 y0 = Except.ok (⟨x0, y0⟩, ⟨x0, y0⟩) := by
  refine ⟨fun x1 y1 => ⟨_, _, rfl⟩, ?_⟩
  simp [extendEdgeOutcome, extendEdge_degenerate]

/-- C7: on every input the run of the clipper with checked divisions meets no zero divisor
and returns the clipper result; an axis with zero direction component leaves the window
unchanged, so with `dx = 0` the window is the one of the y axis alone and with `dy = 0`
the one of the x axis alone. -/
theorem extendEdge_never_divides_by_zero (width height : ℤ) (x0 y0 x1 y1 : ℚ)
    (t : ℚ × ℚ) :
    extendEdgeChecked width height x0 y0 x1 y1
      = some (extendEdgeToBoundingBox width height x0 y0 x1 y1) ∧
    clipXChecked width x0 (x1 - x0) t = some (clipX width x0 (x1 - x0) t) ∧
    clipYChecked height y0 (y1 - y0) t = some (clipY height y0 (y1 - y0) t) ∧
    clipX width x0 0 t = t ∧ clipY height y0 0 t = t ∧
    clipWindow width height x0 y0 x0 y1 = clipY height y0 (y1 - y0) (0, 1) ∧
    clipWindow width height x0 y0 x1 y0 = clipX width x0 (x1 - x0) (0, 1) := by
  refine ⟨extendEdgeChecked_eq _ _ _ _ _ _, clipXChecked_eq _ _ _ _, clipYChecked_eq _ _ _ _,
    clipX_zero _ _ _, clipY_zero _ _ _, ?_, ?_⟩
  · simp [clipWindow, clipX_zero]
  · simp [clipWindow, clipY_zero]

/-! ## The loop body -/

theorem visitEdge_secondary (scaleX scaleY : ℚ) (width height : ℤ) (e : Edge)
    (st : WalkState) (hp : e.is_primary = false) :
    visitEdge scaleX scaleY width height e st = some st := by
  simp [visitEdge, hp]

theorem visitEdge_finite (scaleX scaleY : ℚ) (width height : ℤ) (e : Edge)
    (st : WalkState) (v0 v1 : Vertex) (hp : e.is_primary = true)
    (h0 : e.vertex0 = some v0) (h1 : e.vertex1 = some v1) :
    visitEdge scaleX scaleY width height e st
      = some (appendSegment st (v0.scaledBack scaleX scaleY) (v1.scaledBack scaleX scaleY)) := by
  simp [visitEdge, hp, h0, h1, appendSegment, Vertex.scaledBack]

theorem visitEdge_line (scaleX scaleY : ℚ) (width height : ℤ) (e : Edge)
    (st : WalkState) (hp : e.is_primary = true)
    (h0 : e.vertex0 = none) (h1 : e.vertex1 = none) :
    visitEdge scaleX scaleY width height e st = some st := by
  simp [visitEdge, hp, h0, h1]

theorem clipperArgs_ray0 (v : Vertex) :
    clipperArgs (some v) none = some (v.x, v.y, v.x, v.y) := by
  simp [clipperArgs, selectCoord]

theorem clipperArgs_ray1 (v : Vertex) :
    clipperArgs none (some v) = some (v.x, v.y, v.x, v.y) := by
  simp [clipperArgs, selectCoord]

theorem visitEdge_ray0 (scaleX scaleY : ℚ) (width height : ℤ) (e : Edge)
    (st : WalkState) (v : Vertex) (hp : e.is_primary = true)
    (h0 : e.vertex0 = some v) (h1 : e.vertex1 = none) :
    visitEdge scaleX scaleY width height e st
      = some (appendSegment st v.unscaled v.unscaled) := by
  simp [visitEdge, hp, h0, h1, clipperArgs_ray0, extendEdge_degenerate, appendSegment,
    Vertex.unscaled]

theorem visitEdge_ray1 (scaleX scaleY : ℚ) (width height : ℤ) (e : Edge)
    (st : WalkState) (v : Vertex) (hp : e.is_primary = true)
    (h0 : e.vertex0 = none) (h1 : e.vertex1 = some v) :
    visitEdge scaleX scaleY width height e st
      = some (appendSegment st v.unscaled v.unscaled) := by
  simp [visitEdge, hp, h0, h1, clipperArgs_ray1, extendEdge_degenerate, appendSegment,
    Vertex.unscaled]

/-- The loop body dereferences no null pointer: it has a result on every edge, which is
the state itself or the state with one segment appended. -/
theorem visitEdge_cases (scaleX scaleY : ℚ) (width height : ℤ) (e : Edge)
    (st : WalkState) :
    visitEdge scaleX scaleY width height e st = some st ∨
    ∃ p q, visitEdge scaleX scaleY width height e st = some (appendSegment st p q) := by
  cases hp : e.is_primary with
  | false => exact Or.inl (visitEdge_secondary _ _ _ _ _ _ hp)
  | true =>
    cases h0 : e.vertex0 with
    | none =>
      cases h1 : e.vertex1 with
      | none => exact Or.inl (visitEdge_line _ _ _ _ _ _ hp h0 h1)
      | some v => exact Or.inr ⟨_, _, visitEdge_ray1 _ _ _ _ _ _ v hp h0 h1⟩
    | some v0 =>
      cases h1 : e.vertex1 with
      | none => exact Or.inr ⟨_, _, visitEdge_ray0 _ _ _ _ _ _ v0 hp h0 h1⟩
      | some v1 => exact Or.inr ⟨_, _, visitEdge_finite _ _ _ _ _ _ v0 v1 hp h0 h1⟩

theorem visitEdge_returns (scaleX scaleY : ℚ) (width height : ℤ) (e : Edge)
    (st : WalkState) : ∃ st1, visitEdge scaleX scaleY width height e st = some st1 := by
  rcases visitEdge_cases scaleX scaleY width height e st with h | ⟨p, q, h⟩
  · exact ⟨_, h⟩
  · exact ⟨_, h⟩

/-! ## The walk around one cell -/

/-- A property kept by the loop body on every edge of the arena is kept by the walk. -/
theorem walk_invariant (scaleX scaleY : ℚ) (width height : ℤ) (edges : List Edge)
    (start : Nat) (P : WalkState → Prop)
    (hstep : ∀ e ∈ edges, ∀ st st1, P st →
      visitEdge scaleX scaleY width height e st = some st1 → P st1) :
    ∀ fuel cur st out, P st →
      walk scaleX scaleY width height edges start fuel cur st = some out → P out := by
  intro fuel
  induction fuel with
  | zero => intro cur st out _ h; simp [walk] at h
  | succ n ih =>
    intro cur st out hP h
    unfold walk at h
    cases he : edges[cur]? with
    | none => simp [he] at h
    | some e =>
      have hmem : e ∈ edges := List.getElem?_mem he
      cases hv : visitEdge scaleX scaleY width height e st with
      | none => simp [he, hv] at h
      | some st1 =>
        have hP1 : P st1 := hstep e hmem st st1 hP hv
        simp only [he, hv] at h
        by_cases hn : e.next = start
        · simp only [hn, if_true, Option.some.injEq] at h
          rw [← h]; exact hP1
        · simp only [hn, if_false] at h
          exact ih e.next st1 out hP1 h

/-- With a cyclic `next` relation the walk has a result: it stops at the latest when
`next` has been followed back to the first edge. -/
theorem walk_returns (scaleX scaleY : ℚ) (width height : ℤ) (edges : List Edge)
    (start : Nat) :
    ∀ k fuel cur st, k < fuel → nextIter edges (k + 1) cur = some start →
      ∃ out, walk scaleX scaleY width height edges start fuel cur st = some out := by
  intro k
  induction k with
  | zero =>
    intro fuel cur st hk hit
    obtain ⟨n, rfl⟩ : ∃ n, fuel = n + 1 := ⟨fuel - 1, by omega⟩
    unfold walk
    unfold nextIter at hit
    cases he : edges[cur]? with
    | none => simp [he] at hit
    | some e =>
      simp only [he, nextIter, Option.some.injEq] at hit
      obtain ⟨st1, hv⟩ := visitEdge_returns scaleX scaleY width height e st
      simp [hv, hit]
  | succ k ih =>
    intro fuel cur st hk hit
    obtain ⟨n, rfl⟩ : ∃ n, fuel = n + 1 := ⟨fuel - 1, by omega⟩
    unfold walk
    unfold nextIter at hit
    cases he : edges[cur]? with
    | none => simp [he] at hit
    | some e =>
      simp only [he] at hit
      obtain ⟨st1, hv⟩ := visitEdge_returns scaleX scaleY width height e st
      simp only [hv]
      by_cases hn : e.next = start
      · simp [hn]
      · simp only [hn, if_false]
        exact ih n e.next st1 (by omega) hit

theorem nextIter_add (edges : List Edge) :
    ∀ a b h, nextIter edges (a + b) h = (nextIter edges a h).bind (nextIter edges b) := by
  intro a
  induction a with
  | zero => intro b h; simp [nextIter]
  | succ a ih =>
    intro b h
    rw [Nat.add_right_comm]
    simp only [nextIter]
    cases he : edges[h]? with
    | none => simp
    | some e => simpa using ih b e.next

/-- A handle from which `next` is followed once more is a handle of the arena. -/
theorem nextIter_valid (edges : List Edge) (s j r x : Nat)
    (h : nextIter edges (j + (r + 1)) s = some x) :
    ∃ y, nextIter edges j s = some y ∧ y < edges.length := by
  rw [nextIter_add] at h
  cases hj : nextIter edges j s with
  | none => simp [hj] at h
  | some y =>
    refine ⟨y, rfl, ?_⟩
    simp only [hj, Option.some_bind, nextIter] at h
    cases he : edges[y]? with
    | none => simp [he] at h
    | some e =>
      have := List.getElem?_eq_some_iff.mp he
      exact this.1

/-- A walk that comes back to its first edge at all comes back within as many steps as the
arena has edges: the fuel of `processCell` is enough for every cyclic `next` relation. -/
theorem cyclicFrom_of_returns (edges : List Edge) (s : Nat)
    (h : ∃ k, nextIter edges (k + 1) s = some s) : CyclicFrom edges s := by
  classical
  have hp := Nat.find_spec h
  have hmin : ∀ m, m < Nat.find h → nextIter edges (m + 1) s ≠ some s :=
    fun m hm => Nat.find_min h hm
  generalize Nat.find h = p at hp hmin
  refine ⟨p, ?_, hp⟩
  by_contra hlt
  have hlen : edges.length ≤ p := not_lt.mp hlt
  have hvalid : ∀ j, j ≤ p → ∃ y, nextIter edges j s = some y ∧ y < edges.length := by
    intro j hj
    have : p + 1 = j + ((p - j) + 1) := by omega
    rw [this] at hp
    exact nextIter_valid edges s j (p - j) s hp
  have hmaps : ∀ j ∈ Finset.range (p + 1),
      (nextIter edges j s).getD 0 ∈ Finset.range edges.length := by
    intro j hj
    obtain ⟨y, hy, hyl⟩ := hvalid j (by simpa [Nat.lt_succ_iff] using hj)
    simp [hy, hyl]
  have hcard : (Finset.range edges.length).card < (Finset.range (p + 1)).card := by
    simp; omega
  obtain ⟨i, hi, j, hj, hne, heq⟩ :=
    Finset.exists_ne_map_eq_of_card_lt_of_maps_to hcard hmaps
  have key : ∀ i j, i < j → j ≤ p →
      (nextIter edges i s).getD 0 = (nextIter edges j s).getD 0 → False := by
    intro i j hij hjp heq
    obtain ⟨yi, hyi, _⟩ := hvalid i (by omega)
    obtain ⟨yj, hyj, _⟩ := hvalid j hjp
    simp only [hyi, hyj, Option.getD_some] at heq
    have h1 : nextIter edges (j + (p + 1 - j)) s = some s := by
      have : j + (p + 1 - j) = p + 1 := by omega
      rw [this]; exact hp
    rw [nextIter_add, hyj, Option.some_bind] at h1
    have h2 : nextIter edges (i + (p + 1 - j)) s = some s := by
      rw [nextIter_add, hyi, Option.some_bind, heq]; exact h1
    have h3 : i + (p + 1 - j) = (i + (p - j)) + 1 := by omega
    rw [h3] at h2
    exact hmin (i + (p - j)) (by omega) h2
  simp only [Finset.mem_range, Nat.lt_succ_iff] at hi hj
  rcases Nat.lt_or_gt_of_ne hne with hlt2 | hlt2
  · exact key i j hlt2 hj heq
  · exact key j i hlt2 hi heq.symm

/-- The walk of `processCell`, run with as much fuel as the arena has edges, has a result
whenever following `next` from the first edge leads back to it. -/
theorem walk_fuel_enough (scaleX scaleY : ℚ) (width height : ℤ) (edges : List Edge)
    (start : Nat) (st : WalkState) (h : ∃ k, nextIter edges (k + 1) start = some start) :
    ∃ out, walk scaleX scaleY width height edges start edges.length start st = some out := by
  obtain ⟨k, hk, hit⟩ := cyclicFrom_of_returns edges start h
  exact walk_returns scaleX scaleY width height edges start k edges.length start st hk hit

/-! ## One cell, and the loop over the cells -/

/-- What line 167 does with the state the walk ends in. -/
theorem processCell_eq (airports : List Airport) (scaleX scaleY : ℚ) (width height : ℤ)
    (vd : Diagram) (c : Cell) (acc : Output) (s : Nat) (a : Airport) (st : WalkState)
    (hs : c.incident_edge = some s) (ha : airports[c.source_index]? = some a)
    (hw : walk scaleX scaleY width height vd.edges s vd.edges.length s
      { vertices := [], edges := acc.edges, has_vertices := false } = some st) :
    processCell airports scaleX scaleY width height vd c acc
      = some (if st.has_vertices && c.contains_point then
          { cells := acc.cells ++ [{ vertices := st.vertices, overloaded := a.overloaded }],
            edges := st.edges }
        else { cells := acc.cells, edges := st.edges }) := by
  unfold processCell
  simp only [hs, ha, hw]
  split <;> rfl

theorem processCell_skip (airports : List Airport) (scaleX scaleY : ℚ) (width height : ℤ)
    (vd : Diagram) (c : Cell) (acc : Output) (hs : c.incident_edge = none) :
    processCell airports scaleX scaleY width height vd c acc = some acc := by
  unfold processCell
  simp only [hs]

/-- Every result of one iteration is the accumulator itself (null incident edge) or comes
from a finished walk. -/
theorem processCell_cases (airports : List Airport) (scaleX scaleY : ℚ) (width height : ℤ)
    (vd : Diagram) (c : Cell) (acc out : Output)
    (h : processCell airports scaleX scaleY width height vd c acc = some out) :
    (c.incident_edge = none ∧ out = acc) ∨
    ∃ s a st, c.incident_edge = some s ∧ airports[c.source_index]? = some a ∧
      walk scaleX scaleY width height vd.edges s vd.edges.length s
        { vertices := [], edges := acc.edges, has_vertices := false } = some st ∧
      out = (if st.has_vertices && c.contains_point then
          { cells := acc.cells ++ [{ vertices := st.vertices, overloaded := a.overloaded }],
            edges := st.edges }
        else { cells := acc.cells, edges := st.edges }) := by
  cases hs : c.incident_edge with
  | none =>
    rw [processCell_skip _ _ _ _ _ _ _ _ hs] at h
    exact Or.inl ⟨rfl, (Option.some.inj h).symm⟩
  | some s =>
    cases ha : airports[c.source_index]? with
    | none => simp [processCell, hs, ha] at h
    | some a =>
      cases hw : walk scaleX scaleY width height vd.edges s vd.edges.length s
          { vertices := [], edges := acc.edges, has_vertices := false } with
      | none => simp [processCell, hs, ha, hw] at h
      | some st =>
        rw [processCell_eq _ _ _ _ _ _ _ _ s a st hs ha hw] at h
        exact Or.inr ⟨s, a, st, rfl, rfl, hw, (Option.some.inj h).symm⟩

theorem processCell_returns (airports : List Airport) (scaleX scaleY : ℚ)
    (width height : ℤ) (vd : Diagram) (c : Cell) (acc : Output)
    (hc : ∀ s, c.incident_edge = some s →
      CyclicFrom vd.edges s ∧ c.source_index < airports.length) :
    ∃ out, processCell airports scaleX scaleY width height vd c acc = some out := by
  cases hs : c.incident_edge with
  | none => exact ⟨_, processCell_skip _ _ _ _ _ _ _ _ hs⟩
  | some s =>
    obtain ⟨⟨k, hk, hit⟩, hidx⟩ := hc s hs
    have ha : airports[c.source_index]? = some airports[c.source_index] :=
      List.getElem?_eq_getElem hidx
    obtain ⟨st, hw⟩ := walk_returns scaleX scaleY width height vd.edges s k vd.edges.length s
      { vertices := [], edges := acc.edges, has_vertices := false } hk hit
    exact ⟨_, processCell_eq _ _ _ _ _ _ _ _ s _ st hs ha hw⟩

/-- A property kept by each iteration is kept by the loop over the cells. -/
theorem cellLoop_invariant (airports : List Airport) (scaleX scaleY : ℚ)
    (width height : ℤ) (vd : Diagram) (Q : Output → Prop) :
    ∀ cs acc out,
      (∀ c ∈ cs, ∀ a a1, Q a →
        processCell airports scaleX scaleY width height vd c a = some a1 → Q a1) →
      Q acc → cellLoop airports scaleX scaleY width height vd cs acc = some out → Q out := by
  intro cs
  induction cs with
  | nil =>
    intro acc out _ hQ h
    simp only [cellLoop, Option.some.injEq] at h
    rw [← h]; exact hQ
  | cons c rest ih =>
    intro acc out hstep hQ h
    unfold cellLoop at h
    cases hp : processCell airports scaleX scaleY width height vd c acc with
    | none => simp [hp] at h
    | some acc1 =>
      simp only [hp] at h
      exact ih acc1 out (fun c1 hc1 => hstep c1 (List.mem_cons_of_mem _ hc1))
        (hstep c (List.mem_cons_self _ _) acc acc1 hQ hp) h

theorem cellLoop_returns (airports : List Airport) (scaleX scaleY : ℚ)
    (width height : ℤ) (vd : Diagram) :
    ∀ cs acc,
      (∀ c ∈ cs, ∀ s, c.incident_edge = some s →
        CyclicFrom vd.edges s ∧ c.source_index < airports.length) →
      ∃ out, cellLoop airports scaleX scaleY width height vd cs acc = some out := by
  intro cs
  induction cs with
  | nil => intro acc _; exact ⟨acc, rfl⟩
  | cons c rest ih =>
    intro acc hwf
    obtain ⟨acc1, hp⟩ := processCell_returns airports scaleX scaleY width height vd c acc
      (hwf c (List.mem_cons_self _ _))
    obtain ⟨out, ho⟩ := ih acc1 (fun c1 hc1 => hwf c1 (List.mem_cons_of_mem _ hc1))
    refine ⟨out, ?_⟩
    unfold cellLoop
    simp only [hp]
    exact ho

/-- On a well-formed diagram `computeVoronoiCells` has a result. -/
theorem computeVoronoiCells_returns (airports : List Airport) (scaleX scaleY : ℚ)
    (width height : ℤ) (vd : Diagram) (edges : List Segment)
    (hwf : WellFormed airports vd) :
    ∃ out, computeVoronoiCells airports scaleX scaleY width height vd edges = some out :=
  cellLoop_returns airports scaleX scaleY width height vd vd.cells _ hwf

/-! ## Invariants of the walk used by the claims -/

/-- Every segment listed during a walk that started from the list `base` is in `base` or
appears in the polygon under construction, and then `has_vertices` is set. -/
theorem walk_adjacent (scaleX scaleY : ℚ) (width height : ℤ) (edges : List Edge)
    (start : Nat) (base : List Segment) (fuel cur : Nat) (st out : WalkState)
    (hst : ∀ s ∈ st.edges, s ∈ base ∨ (st.has_vertices = true ∧ Adjacent st.vertices s))
    (hw : walk scaleX scaleY width height edges start fuel cur st = some out) :
    ∀ s ∈ out.edges, s ∈ base ∨ (out.has_vertices = true ∧ Adjacent out.vertices s) := by
  refine walk_invariant scaleX scaleY width height edges start
    (fun st => ∀ s ∈ st.edges, s ∈ base ∨ (st.has_vertices = true ∧ Adjacent st.vertices s))
    ?_ fuel cur st out hst hw
  intro e _ st0 st1 hP hvis
  rcases visitEdge_cases scaleX scaleY width height e st0 with h | ⟨p, q, h⟩
  · rw [h] at hvis
    cases hvis; exact hP
  · rw [h] at hvis
    cases hvis
    intro s hs
    simp only [appendSegment, List.mem_append, List.mem_singleton] at hs
    rcases hs with h1 | h1
    · rcases hP s h1 with h2 | ⟨_, h2⟩
      · exact Or.inl h2
      · right
        refine ⟨rfl, ?_⟩
        exact List.IsInfix.trans h2 (List.prefix_append _ _).isInfix
    · right
      refine ⟨rfl, ?_⟩
      rw [h1]
      exact (List.suffix_append _ _).isInfix

/-- A walk over an arena without primary edge leaves the state as it was. -/
theorem walk_secondary (scaleX scaleY : ℚ) (width height : ℤ) (edges : List Edge)
    (start : Nat) (hsec : ∀ e ∈ edges, e.is_primary = false)
    (fuel cur : Nat) (st out : WalkState)
    (hw : walk scaleX scaleY width height edges start fuel cur st = some out) :
    out = st := by
  refine walk_invariant scaleX scaleY width height edges start (fun s => s = st)
    ?_ fuel cur st out rfl hw
  intro e hmem st0 st1 hP hvis
  rw [visitEdge_secondary _ _ _ _ _ _ (hsec e hmem)] at hvis
  cases hvis; exact hP

/-! ## Invariants of the loop over the cells -/

theorem processCell_adjacent (airports : List Airport) (scaleX scaleY : ℚ)
    (width height : ℤ) (vd : Diagram) (c : Cell) (hpt : c.contains_point = true)
    (acc out : Output) (hacc : EdgesInCells acc)
    (h : processCell airports scaleX scaleY width height vd c acc = some out) :
    EdgesInCells out := by
  rcases processCell_cases _ _ _ _ _ _ _ _ _ h with ⟨_, rfl⟩ | ⟨s, a, st, _, _, hw, rfl⟩
  · exact hacc
  · have hadj := walk_adjacent scaleX scaleY width height vd.edges s acc.edges _ _ _ st
      (fun x hx => Or.inl hx) hw
    cases hhv : st.has_vertices with
    | false =>
      simp only [hhv, Bool.false_and]
      intro x hx
      rcases hadj x hx with h1 | ⟨h1, _⟩
      · exact hacc x h1
      · rw [hhv] at h1; cases h1
    | true =>
      simp only [hhv, hpt, Bool.and_self, if_true]
      intro x hx
      rcases hadj x hx with h1 | ⟨_, h1⟩
      · obtain ⟨vc, hvc, hin⟩ := hacc x h1
        exact ⟨vc, List.mem_append_left _ hvc, hin⟩
      · exact ⟨_, List.mem_append_right _ (List.mem_singleton_self _), h1⟩

theorem processCell_secondary (airports : List Airport) (scaleX scaleY : ℚ)
    (width height : ℤ) (vd : Diagram) (hsec : ∀ e ∈ vd.edges, e.is_primary = false)
    (c : Cell) (acc out : Output)
    (h : processCell airports scaleX scaleY width height vd c acc = some out) :
    out = acc := by
  rcases processCell_cases _ _ _ _ _ _ _ _ _ h with ⟨_, rfl⟩ | ⟨s, a, st, _, _, hw, rfl⟩
  · rfl
  · have hst := walk_secondary scaleX scaleY width height vd.edges s hsec _ _ _ st hw
    rw [hst]
    rfl

/-! ## The edge list only grows, and the walk does not read it -/

theorem appendSegment_prepend (base : List Segment) (st : WalkState) (p q : Vector2f) :
    appendSegment (prependEdges base st) p q = prependEdges base (appendSegment st p q) := by
  simp [appendSegment, prependEdges, List.append_assoc]

theorem visitEdge_prepend (scaleX scaleY : ℚ) (width height : ℤ) (e : Edge)
    (base : List Segment) (st : WalkState) :
    visitEdge scaleX scaleY width height e (prependEdges base st)
      = (visitEdge scaleX scaleY width height e st).map (prependEdges base) := by
  cases hp : e.is_primary with
  | false => simp [visitEdge_secondary _ _ _ _ _ _ hp]
  | true =>
    cases h0 : e.vertex0 with
    | none =>
      cases h1 : e.vertex1 with
      | none => simp [visitEdge_line _ _ _ _ _ _ hp h0 h1]
      | some v =>
        simp [visitEdge_ray1 _ _ _ _ _ _ v hp h0 h1, appendSegment_prepend]
    | some v0 =>
      cases h1 : e.vertex1 with
      | none =>
        simp [visitEdge_ray0 _ _ _ _ _ _ v0 hp h0 h1, appendSegment_prepend]
      | some v1 =>
        simp [visitEdge_finite _ _ _ _ _ _ v0 v1 hp h0 h1, appendSegment_prepend]

theorem walk_prepend (scaleX scaleY : ℚ) (width height : ℤ) (edges : List Edge)
    (start : Nat) (base : List Segment) :
    ∀ fuel cur st,
      walk scaleX scaleY width height edges start fuel cur (prependEdges base st)
        = (walk scaleX scaleY width height edges start fuel cur st).map
            (prependEdges base) := by
  intro fuel
  induction fuel with
  | zero => intro cur st; simp [walk]
  | succ n ih =>
    intro cur st
    unfold walk
    cases he : edges[cur]? with
    | none => simp
    | some e =>
      simp only [visitEdge_prepend]
      cases hv : visitEdge scaleX scaleY width height e st with
      | none => simp
      | some st1 =>
        simp only [Option.map_some']
        by_cases hn : e.next = start
        · simp [hn]
        · simp only [hn, if_false]
          exact ih e.next st1

theorem visitEdge_edges_grow (scaleX scaleY : ℚ) (width height : ℤ) (e : Edge)
    (st st1 : WalkState) (h : visitEdge scaleX scaleY width height e st = some st1) :
    st.edges <+: st1.edges := by
  rcases visitEdge_cases scaleX scaleY width height e st with h1 | ⟨p, q, h1⟩
  · rw [h1] at h; cases h; exact List.prefix_refl _
  · rw [h1] at h; cases h; exact List.prefix_append _ _

theorem walk_edges_grow (scaleX scaleY : ℚ) (width height : ℤ) (edges : List Edge)
    (start fuel cur : Nat) (st out : WalkState)
    (h : walk scaleX scaleY width height edges start fuel cur st = some out) :
    st.edges <+: out.edges := by
  refine walk_invariant scaleX scaleY width height edges start
    (fun x => st.edges <+: x.edges) ?_ fuel cur st out (List.prefix_refl _) h
  intro e _ a a1 hP hv
  exact hP.trans (visitEdge_edges_grow _ _ _ _ e a a1 hv)

theorem processCell_edges_grow (airports : List Airport) (scaleX scaleY : ℚ)
    (width height : ℤ) (vd : Diagram) (c : Cell) (acc out : Output)
    (h : processCell airports scaleX scaleY width height vd c acc = some out) :
    acc.edges <+: out.edges := by
  rcases processCell_cases _ _ _ _ _ _ _ _ _ h with ⟨_, rfl⟩ | ⟨s, a, st, _, _, hw, rfl⟩
  · exact List.prefix_refl _
  · have := walk_edges_grow _ _ _ _ _ _ _ _ _ st hw
    split <;> exact this

theorem cellLoop_edges_grow (airports : List Airport) (scaleX scaleY : ℚ)
    (width height : ℤ) (vd : Diagram) (cs : List Cell) (acc out : Output)
    (h : cellLoop airports scaleX scaleY width height vd cs acc = some out) :
    acc.edges <+: out.edges := by
  refine cellLoop_invariant airports scaleX scaleY width height vd
    (fun o => acc.edges <+: o.edges) cs acc out ?_ (List.prefix_refl _) h
  intro c _ a a1 hQ hp
  exact hQ.trans (processCell_edges_grow _ _ _ _ _ _ c a a1 hp)

/-- The walk of `processCell`, which starts from the edge list gathered so far, is the
walk of `cellWalk` with that list put in front. -/
theorem processCell_walk (scaleX scaleY : ℚ) (width height : ℤ) (vd : Diagram)
    (c : Cell) (s : Nat) (base : List Segment) (st : WalkState)
    (hs : c.incident_edge = some s)
    (hw : walk scaleX scaleY width height vd.edges s vd.edges.length s
      { vertices := [], edges := base, has_vertices := false } = some st) :
    ∃ st0, cellWalk scaleX scaleY width height vd c = some st0 ∧
      st = prependEdges base st0 := by
  have h0 : ({ vertices := [], edges := base, has_vertices := false } : WalkState)
      = prependEdges base { vertices := [], edges := [], has_vertices := false } := by
    simp [prependEdges]
  rw [h0, walk_prepend] at hw
  unfold cellWalk
  simp only [hs]
  cases hc : walk scaleX scaleY width height vd.edges s vd.edges.length s
      { vertices := [], edges := [], has_vertices := false } with
  | none => simp [hc] at hw
  | some st0 =>
    simp only [hc, Option.map_some', Option.some.injEq] at hw
    exact ⟨st0, rfl, hw.symm⟩

/-- The cells emitted by the loop are, in order, those of the visited diagram cells that
pass the guard of line 167, each with its own polygon and the flag of its own airport. -/
theorem cellLoop_emitted (airports : List Airport) (scaleX scaleY : ℚ)
    (width height : ℤ) (vd : Diagram) :
    ∀ cs acc out, cellLoop airports scaleX scaleY width height vd cs acc = some out →
      ∃ new, out.cells = acc.cells ++ new ∧
        List.Forall₂ (EmittedFrom airports scaleX scaleY width height vd) new
          (cs.filter (emits scaleX scaleY width height vd)) := by
  intro cs
  induction cs with
  | nil =>
    intro acc out h
    simp only [cellLoop, Option.some.injEq] at h
    exact ⟨[], by rw [← h]; simp, List.Forall₂.nil⟩
  | cons c rest ih =>
    intro acc out h
    unfold cellLoop at h
    cases hp : processCell airports scaleX scaleY width height vd c acc with
    | none => simp [hp] at h
    | some acc1 =>
      simp only [hp] at h
      obtain ⟨new, hcells, hall⟩ := ih acc1 out h
      rcases processCell_cases _ _ _ _ _ _ _ _ _ hp with
        ⟨hs, rfl⟩ | ⟨s, a, st, hs, ha, hw, rfl⟩
      · have hem : emits scaleX scaleY width height vd c = false := by
          simp [emits, cellWalk, hs]
        refine ⟨new, hcells, ?_⟩
        rw [List.filter_cons_of_neg (by simp [hem])]
        exact hall
      · obtain ⟨st0, hc0, rfl⟩ := processCell_walk scaleX scaleY width height vd c s
          acc.edges st hs hw
        have hem : emits scaleX scaleY width height vd c
            = (st0.has_vertices && c.contains_point) := by
          simp [emits, hc0]
        by_cases hcond : (st0.has_vertices && c.contains_point) = true
        · have hcond1 : ((prependEdges acc.edges st0).has_vertices && c.contains_point)
              = true := hcond
          simp only [hcond1, if_true] at hcells
          refine ⟨{ vertices := st0.vertices, overloaded := a.overloaded } :: new, ?_, ?_⟩
          · rw [hcells]; simp [prependEdges]
          · rw [List.filter_cons_of_pos (by rw [hem]; exact hcond)]
            exact List.Forall₂.cons ⟨a, st0, ha, hc0, rfl, rfl⟩ hall
        · have hcond1 : ¬ ((prependEdges acc.edges st0).has_vertices && c.contains_point)
              = true := hcond
          simp only [hcond1, if_false] at hcells
          refine ⟨new, hcells, ?_⟩
          rw [List.filter_cons_of_neg (by rw [hem]; exact hcond)]
          exact hall

/-! ## Finite edges are reported scaled back and unclipped -/

/-- When the primary edges of the arena have two finite endpoints or none, the walk pushes
nothing but scaled-back endpoints of finite primary edges. -/
theorem walk_scaled (scaleX scaleY : ℚ) (width height : ℤ) (edges : List Edge)
    (start : Nat)
    (hshape : ∀ e ∈ edges, e.is_primary = true → e.vertex0.isSome = e.vertex1.isSome)
    (fuel cur : Nat) (st out : WalkState)
    (hv : ∀ p ∈ st.vertices, ScaledEndpointOf scaleX scaleY edges p)
    (he : ∀ s ∈ st.edges, ScaledSegmentOf scaleX scaleY edges s)
    (hw : walk scaleX scaleY width height edges start fuel cur st = some out) :
    (∀ p ∈ out.vertices, ScaledEndpointOf scaleX scaleY edges p) ∧
    ∀ s ∈ out.edges, ScaledSegmentOf scaleX scaleY edges s := by
  refine walk_invariant scaleX scaleY width height edges start
    (fun st => (∀ p ∈ st.vertices, ScaledEndpointOf scaleX scaleY edges p) ∧
      ∀ s ∈ st.edges, ScaledSegmentOf scaleX scaleY edges s)
    ?_ fuel cur st out ⟨hv, he⟩ hw
  intro e hmem st0 st1 hP hvis
  cases hp : e.is_primary with
  | false =>
    rw [visitEdge_secondary _ _ _ _ _ _ hp] at hvis
    cases hvis; exact hP
  | true =>
    have hsh := hshape e hmem hp
    cases h0 : e.vertex0 with
    | none =>
      cases h1 : e.vertex1 with
      | none =>
        rw [visitEdge_line _ _ _ _ _ _ hp h0 h1] at hvis
        cases hvis; exact hP
      | some v => rw [h0, h1] at hsh; cases hsh
    | some v0 =>
      cases h1 : e.vertex1 with
      | none => rw [h0, h1] at hsh; cases hsh
      | some v1 =>
        rw [visitEdge_finite _ _ _ _ _ _ v0 v1 hp h0 h1] at hvis
        cases hvis
        constructor
        · intro p hp1
          simp only [appendSegment, List.mem_append, List.mem_cons, List.mem_singleton,
            List.not_mem_nil, or_false] at hp1
          rcases hp1 with h | h | h
          · exact hP.1 p h
          · exact ⟨e, hmem, v0, v1, ⟨hp, h0, h1⟩, Or.inl h⟩
          · exact ⟨e, hmem, v0, v1, ⟨hp, h0, h1⟩, Or.inr h⟩
        · intro s hs
          simp only [appendSegment, List.mem_append, List.mem_singleton] at hs
          rcases hs with h | h
          · exact hP.2 s h
          · exact ⟨e, hmem, v0, v1, ⟨hp, h0, h1⟩, h⟩

/-- Every finite primary edge met by the walk before it comes back to its first edge has
the segment of its two scaled-back endpoints in the edge list the walk ends with. -/
theorem walk_reports (scaleX scaleY : ℚ) (width height : ℤ) (edges : List Edge)
    (start : Nat) :
    ∀ fuel cur st out,
      walk scaleX scaleY width height edges start fuel cur st = some out →
      ∀ k h e v0 v1, nextIter edges k cur = some h →
        (∀ j, 1 ≤ j → j ≤ k → nextIter edges j cur ≠ some start) →
        edges[h]? = some e → FiniteEdge e v0 v1 →
        (v0.scaledBack scaleX scaleY, v1.scaledBack scaleX scaleY) ∈ out.edges := by
  intro fuel
  induction fuel with
  | zero => intro cur st out hw; simp [walk] at hw
  | succ n ih =>
    intro cur st out hw k h e v0 v1 hk hno he hfin
    unfold walk at hw
    cases hc : edges[cur]? with
    | none => simp [hc] at hw
    | some e0 =>
      cases hv : visitEdge scaleX scaleY width height e0 st with
      | none => simp [hc, hv] at hw
      | some st1 =>
        simp only [hc, hv] at hw
        cases k with
        | zero =>
          simp only [nextIter, Option.some.injEq] at hk
          subst hk
          rw [hc] at he
          cases he
          rw [visitEdge_finite _ _ _ _ _ _ v0 v1 hfin.1 hfin.2.1 hfin.2.2] at hv
          cases hv
          have hin : (v0.scaledBack scaleX scaleY, v1.scaledBack scaleX scaleY)
              ∈ (appendSegment st (v0.scaledBack scaleX scaleY)
                  (v1.scaledBack scaleX scaleY)).edges := by
            simp [appendSegment]
          by_cases hn : e.next = start
          · simp only [hn, if_true, Option.some.injEq] at hw
            rw [← hw]; exact hin
          · simp only [hn, if_false] at hw
            exact (walk_edges_grow _ _ _ _ _ _ _ _ _ out hw).subset hin
        | succ k =>
          have hstep : ∀ j, nextIter edges (j + 1) cur = nextIter edges j e0.next := by
            intro j; simp only [nextIter, hc]
          have hn : e0.next ≠ start := by
            have := hno 1 (le_refl 1) (by omega)
            rw [hstep 0] at this
            simpa [nextIter] using this
          simp only [hn, if_false] at hw
          rw [hstep k] at hk
          refine ih e0.next st1 out hw k h e v0 v1 hk ?_ he hfin
          intro j hj1 hjk
          rw [← hstep j]
          exact hno (j + 1) (by omega) (by omega)

theorem processCell_scaled (airports : List Airport) (scaleX scaleY : ℚ)
    (width height : ℤ) (vd : Diagram)
    (hshape : ∀ e ∈ vd.edges, e.is_primary = true → e.vertex0.isSome = e.vertex1.isSome)
    (c : Cell) (acc out : Output)
    (hacc : (∀ vc ∈ acc.cells, ∀ p ∈ vc.vertices, ScaledEndpointOf scaleX scaleY vd.edges p) ∧
      ∀ s ∈ acc.edges, ScaledSegmentOf scaleX scaleY vd.edges s)
    (h : processCell airports scaleX scaleY width height vd c acc = some out) :
    (∀ vc ∈ out.cells, ∀ p ∈ vc.vertices, ScaledEndpointOf scaleX scaleY vd.edges p) ∧
    ∀ s ∈ out.edges, ScaledSegmentOf scaleX scaleY vd.edges s := by
  rcases processCell_cases _ _ _ _ _ _ _ _ _ h with ⟨_, rfl⟩ | ⟨s, a, st, _, _, hw, rfl⟩
  · exact hacc
  · obtain ⟨hv, he⟩ := walk_scaled scaleX scaleY width height vd.edges s hshape _ _ _ st
      (by intro p hp; cases hp) hacc.2 hw
    split
    · refine ⟨?_, he⟩
      intro vc hvc
      simp only [List.mem_append, List.mem_singleton] at hvc
      rcases hvc with h1 | h1
      · exact hacc.1 vc h1
      · rw [h1]; exact hv
    · exact ⟨hacc.1, he⟩

/-- Every finite primary edge met by the walk around a visited cell has the segment of its
two scaled-back endpoints in the edge list the loop ends with. -/
theorem cellLoop_reports (airports : List Airport) (scaleX scaleY : ℚ)
    (width height : ℤ) (vd : Diagram) :
    ∀ cs acc out, cellLoop airports scaleX scaleY width height vd cs acc = some out →
      ∀ c ∈ cs, ∀ s ∈ c.incident_edge, ∀ h e v0 v1, OnWalk vd.edges s h →
        vd.edges[h]? = some e → FiniteEdge e v0 v1 →
        (v0.scaledBack scaleX scaleY, v1.scaledBack scaleX scaleY) ∈ out.edges := by
  intro cs
  induction cs with
  | nil => intro acc out _ c hc; cases hc
  | cons c0 rest ih =>
    intro acc out hl c hc s hs h e v0 v1 hon he hfin
    unfold cellLoop at hl
    cases hp : processCell airports scaleX scaleY width height vd c0 acc with
    | none => simp [hp] at hl
    | some acc1 =>
      simp only [hp] at hl
      rcases List.mem_cons.mp hc with rfl | hrest
      · rcases processCell_cases _ _ _ _ _ _ _ _ _ hp with
          ⟨hnone, _⟩ | ⟨s1, a, st, hs1, _, hw, hacc1⟩
        · rw [Option.mem_def, hnone] at hs; cases hs
        · rw [Option.mem_def, hs1] at hs
          cases hs
          obtain ⟨k, hk, hno⟩ := hon
          have hin := walk_reports scaleX scaleY width height vd.edges _ _ _ _ st hw
            k h e v0 v1 hk hno he hfin
          have hedges : acc1.edges = st.edges := by
            rw [hacc1]; split <;> rfl
          rw [← hedges] at hin
          exact (cellLoop_edges_grow _ _ _ _ _ _ rest acc1 out hl).subset hin
      · exact ih acc1 out hl c hrest s hs h e v0 v1 hon he hfin

/-! ## Values on the concrete diagrams -/

theorem fourSite_value :
    computeVoronoiCells fourSites 2 2 1200 800 fourSiteDiagram [] = some fourSiteOutput := by
  norm_num [computeVoronoiCells, cellLoop, processCell, walk, visitEdge, clipperArgs,
    selectCoord, extendEdge_degenerate, fourSiteDiagram, fourSites, fourSiteOutput]

/-! ## The cell walk: claims C1, C2, C3, C4, C8, C9, C10 -/

/-- C2: for every list of airports and every well-formed diagram with one cell per
airport, `computeVoronoiCells` returns, emits at most as many cells as there are airports,
and the emitted cells are, in order, those of the diagram cells that pass the guard of
line 167: each emitted cell has the polygon walked around its own diagram cell and the
`overloaded` flag of the airport at that cell's `source_index`. -/
theorem emitted_cells_carry_source_flag (airports : List Airport) (scaleX scaleY : ℚ)
    (width height : ℤ) (vd : Diagram) (edges : List Segment)
    (hcells : vd.cells.length = airports.length) (hwf : WellFormed airports vd) :
    ∃ out, computeVoronoiCells airports scaleX scaleY width height vd edges = some out ∧
      out.cells.length ≤ airports.length ∧
      List.Forall₂ (EmittedFrom airports scaleX scaleY width height vd) out.cells
        (vd.cells.filter (emits scaleX scaleY width height vd)) := by
  obtain ⟨out, hout⟩ :=
    computeVoronoiCells_returns airports scaleX scaleY width height vd edges hwf
  obtain ⟨new, hc, hall⟩ :=
    cellLoop_emitted airports scaleX scaleY width height vd vd.cells _ out hout
  have hnew : out.cells = new := by simpa using hc
  refine ⟨out, hout, ?_, by rw [hnew]; exact hall⟩
  rw [hnew, hall.length_eq, ← hcells]
  exact List.length_filter_le _ _

/-- Witness of C2: the four airports and their diagram. -/
theorem emitted_cells_carry_source_flag_witness :
    fourSiteDiagram.cells.length = fourSites.length ∧
    WellFormed fourSites fourSiteDiagram ∧
    ∃ out, computeVoronoiCells fourSites 2 2 1200 800 fourSiteDiagram [] = some out ∧
      out.cells.length ≤ fourSites.length ∧
      List.Forall₂ (EmittedFrom fourSites 2 2 1200 800 fourSiteDiagram) out.cells
        (fourSiteDiagram.cells.filter (emits 2 2 1200 800 fourSiteDiagram)) :=
  ⟨by decide, by decide,
    emitted_cells_carry_source_flag fourSites 2 2 1200 800 fourSiteDiagram []
      (by decide) (by decide)⟩

/-- C3, as stated, fails: for the sites (0,0) and (10,0) on the 10 x 10 canvas and the
two-cell diagram of the bisector line, the edge list stays empty and no cell is emitted,
instead of one segment from (5,0) to (5,10) and two cells. -/
theorem twoSite_no_separating_segment :
    computeVoronoiCells (twoSites 10 false true) 1 1 10 10 twoSiteDiagram []
      = some ⟨[], []⟩ ∧
    ¬ ∃ out, computeVoronoiCells (twoSites 10 false true) 1 1 10 10 twoSiteDiagram []
        = some out ∧ out.edges = [(⟨5, 0⟩, ⟨5, 10⟩)] ∧ out.cells.length = 2 := by
  have h : computeVoronoiCells (twoSites 10 false true) 1 1 10 10 twoSiteDiagram []
      = some ⟨[], []⟩ := by decide
  refine ⟨h, ?_⟩
  rintro ⟨out, ho, he, _⟩
  rw [h] at ho
  cases ho
  simp at he

/-- C3, amended: for the sites (0,0) and (W,0), every scale and every canvas, on the
two-cell diagram whose cells are each bounded by one primary edge with both endpoints
absent, `computeVoronoiCells` returns, appends no segment to the edge list and emits no
cell: a primary edge without a finite endpoint is passed over. -/
theorem twoSite_emits_nothing (W H : ℤ) (o0 o1 : Bool) (scaleX scaleY : ℚ)
    (edges : List Segment) :
    computeVoronoiCells (twoSites (W : ℚ) o0 o1) scaleX scaleY W H twoSiteDiagram edges
      = some ⟨[], edges⟩ := by
  simp [computeVoronoiCells, cellLoop, processCell, walk, visitEdge, twoSiteDiagram,
    twoSites]

/-- C4, as stated, fails: for one site at (5,5) on the 10 x 10 canvas and the diagram of
one point-backed cell with a null incident edge, no cell is emitted. -/
theorem oneSite_no_cell :
    computeVoronoiCells oneSite 1 1 10 10 oneSiteDiagram [] = some ⟨[], []⟩ ∧
    ¬ ∃ out, computeVoronoiCells oneSite 1 1 10 10 oneSiteDiagram [] = some out ∧
        out.cells.length = 1 := by
  have h : computeVoronoiCells oneSite 1 1 10 10 oneSiteDiagram [] = some ⟨[], []⟩ := by
    decide
  refine ⟨h, ?_⟩
  rintro ⟨out, ho, hl⟩
  rw [h] at ho
  cases ho
  simp at hl

/-- C4, amended: on a well-formed diagram without primary edge (a cell with a null
incident edge, or cells whose edges are all secondary) `computeVoronoiCells` returns,
emits no cell and appends no segment to the edge list. -/
theorem no_primary_edge_no_cell (airports : List Airport) (scaleX scaleY : ℚ)
    (width height : ℤ) (vd : Diagram) (edges : List Segment)
    (hwf : WellFormed airports vd) (hsec : ∀ e ∈ vd.edges, e.is_primary = false) :
    computeVoronoiCells airports scaleX scaleY width height vd edges = some ⟨[], edges⟩ := by
  obtain ⟨out, hout⟩ :=
    computeVoronoiCells_returns airports scaleX scaleY width height vd edges hwf
  rw [hout]
  congr 1
  refine cellLoop_invariant airports scaleX scaleY width height vd
    (fun o => o = ⟨[], edges⟩) vd.cells _ out ?_ rfl hout
  intro c _ a a1 hQ hp
  rw [processCell_secondary airports scaleX scaleY width height vd hsec c a a1 hp]
  exact hQ

/-- Witness of C4, amended: one site, one cell walked over two secondary edges. -/
theorem no_primary_edge_no_cell_witness :
    WellFormed oneSite secondaryOnlyDiagram ∧
    (∀ e ∈ secondaryOnlyDiagram.edges, e.is_primary = false) ∧
    computeVoronoiCells oneSite 1 1 10 10 secondaryOnlyDiagram [] = some ⟨[], []⟩ :=
  ⟨by decide, by decide,
    no_primary_edge_no_cell oneSite 1 1 10 10 secondaryOnlyDiagram [] (by decide)
      (by decide)⟩

/-- C8: on every well-formed diagram built from point sites (every cell backed by a point),
run from the empty edge list of the call in `main`, `computeVoronoiCells` returns and every
segment `(p, q)` of the output edge list appears in the polygon of some emitted cell, `p`
immediately followed by `q`. -/
theorem listed_segments_in_polygons (airports : List Airport) (scaleX scaleY : ℚ)
    (width height : ℤ) (vd : Diagram) (hwf : WellFormed airports vd)
    (hpt : PointBacked vd) :
    ∃ out, computeVoronoiCells airports scaleX scaleY width height vd [] = some out ∧
      EdgesInCells out := by
  obtain ⟨out, hout⟩ :=
    computeVoronoiCells_returns airports scaleX scaleY width height vd [] hwf
  refine ⟨out, hout, ?_⟩
  refine cellLoop_invariant airports scaleX scaleY width height vd EdgesInCells
    vd.cells _ out ?_ ?_ hout
  · intro c hc a a1 hQ hp
    exact processCell_adjacent airports scaleX scaleY width height vd c (hpt c hc) a a1 hQ hp
  · intro x hx; cases hx

/-- Witness of C8: the four-site diagram. -/
theorem listed_segments_in_polygons_witness :
    WellFormed fourSites fourSiteDiagram ∧ PointBacked fourSiteDiagram ∧
    ∃ out, computeVoronoiCells fourSites 2 2 1200 800 fourSiteDiagram [] = some out ∧
      EdgesInCells out :=
  ⟨by decide, by decide,
    listed_segments_in_polygons fourSites 2 2 1200 800 fourSiteDiagram (by decide)
      (by decide)⟩

/-- C9 at the failing input: on the four-site diagram with scale 2 the vertex (344,560) is
reported as (172,280) on the finite edge 0 and, undivided, as (344,560) on the ray
edge 1, in the edge list and in the polygon of the cell of A. -/
theorem fourSite_ray_not_scaled_back :
    computeVoronoiCells fourSites 2 2 1200 800 fourSiteDiagram [] = some fourSiteOutput ∧
    fourSiteOutput.edges[0]? = some (⟨300, -2920⟩, ⟨172, 280⟩) ∧
    fourSiteOutput.edges[1]? = some (⟨344, 560⟩, ⟨344, 560⟩) ∧
    fourSiteOutput.cells[0]? = some
      ⟨[⟨300, -2920⟩, ⟨172, 280⟩, ⟨344, 560⟩, ⟨344, 560⟩,
        ⟨600, -5840⟩, ⟨600, -5840⟩], false⟩ ∧
    (⟨344, 560⟩ : Vector2f) ≠ Vertex.scaledBack 2 2 ⟨344, 560⟩ := by
  refine ⟨fourSite_value, ?_, ?_, ?_, ?_⟩
  · simp [fourSiteOutput]
  · simp [fourSiteOutput]
  · simp [fourSiteOutput]
  · norm_num [Vertex.scaledBack]

/-- C10: for a primary edge with exactly one finite endpoint `v`, the clipper arguments
are `(v.x, v.y, v.x, v.y)`, the clipper leaves the window at `(0, 1)` and returns `(v, v)`,
and the loop body appends `v` twice to the polygon and `(v, v)` to the edge list, for every
scale, every canvas size and every `v`. -/
theorem ray_edge_yields_its_endpoint (scaleX scaleY : ℚ) (width height : ℤ) (e : Edge)
    (v : Vertex) (st : WalkState) (hp : e.is_primary = true)
    (hv : (e.vertex0 = some v ∧ e.vertex1 = none) ∨ (e.vertex0 = none ∧ e.vertex1 = some v)) :
    clipperArgs e.vertex0 e.vertex1 = some (v.x, v.y, v.x, v.y) ∧
    clipWindow width height v.x v.y v.x v.y = (0, 1) ∧
    extendEdgeToBoundingBox width height v.x v.y v.x v.y = (⟨v.x, v.y⟩, ⟨v.x, v.y⟩) ∧
    visitEdge scaleX scaleY width height e st
      = some { vertices := st.vertices ++ [⟨v.x, v.y⟩, ⟨v.x, v.y⟩],
               edges := st.edges ++ [(⟨v.x, v.y⟩, ⟨v.x, v.y⟩)],
               has_vertices := true } := by
  refine ⟨?_, clipWindow_degenerate _ _ _ _, extendEdge_degenerate _ _ _ _, ?_⟩
  · rcases hv with ⟨h0, h1⟩ | ⟨h0, h1⟩
    · rw [h0, h1]; exact clipperArgs_ray0 v
    · rw [h0, h1]; exact clipperArgs_ray1 v
  · rcases hv with ⟨h0, h1⟩ | ⟨h0, h1⟩
    · rw [visitEdge_ray0 _ _ _ _ _ _ v hp h0 h1]; rfl
    · rw [visitEdge_ray1 _ _ _ _ _ _ v hp h0 h1]; rfl

/-- Witness of C10: the ray edge 1 of the four-site diagram, from the vertex (344,560). -/
theorem ray_edge_yields_its_endpoint_witness :
    visitEdge 2 2 1200 800 ⟨true, some ⟨344, 560⟩, none, 2⟩ ⟨[], [], false⟩
      = some { vertices := [⟨344, 560⟩, ⟨344, 560⟩],
               edges := [(⟨344, 560⟩, ⟨344, 560⟩)],
               has_vertices := true } :=
  (ray_edge_yields_its_endpoint 2 2 1200 800 ⟨true, some ⟨344, 560⟩, none, 2⟩ ⟨344, 560⟩
    ⟨[], [], false⟩ rfl (Or.inl ⟨rfl, rfl⟩)).2.2.2

end DAMS
